import Mathlib

/-!
Verification of the motion-tracker core: the kinematics estimator
(`analyzeMotion`), the smoother (`smoothMotionData`), and the ROI
propagation tracker (`trackObjectAcrossFrames` with its candidate
selection `postprocessResults`).

JavaScript numbers are modelled as real numbers; `Math.sqrt` is
`Real.sqrt`.  The `Map<number, ROIData>` input of the estimator is
modelled as its list of keys (integers, distinct) together with a total
lookup function `roiOf`; every lookup the source performs is on a key of
the map, so a total function is faithful there.  `Array.sort((a, b) => a - b)`
on distinct numeric keys is modelled by `List.insertionSort (· ≤ ·)`.
-/

/-- Model of the `ROIData` interface: an axis-aligned box, top-left
corner `(x, y)`, extent `(w, h)`, in pixel coordinates. -/
structure ROIData where
  x : ℝ
  y : ℝ
  w : ℝ
  h : ℝ

/-- Model of the `MotionData` interface produced by the estimator. -/
structure MotionData where
  frame : ℤ
  x : ℝ
  y : ℝ
  vx : ℝ
  vy : ℝ
  speed : ℝ
  ax : ℝ
  ay : ℝ
  acceleration : ℝ
  time : ℝ

instance : Inhabited MotionData :=
  ⟨⟨0, 0, 0, 0, 0, 0, 0, 0, 0, 0⟩⟩

/-- Velocity of sample `i` of `analyzeMotion`, mirroring the three
finite-difference branches of the source loop: central difference over
the actual neighboring keys for interior samples (divided by
`(nextFrame - prevFrame) * dt`), and a plain one-step difference divided
by `dt = 1 / fps` at the two boundary samples. -/
noncomputable def velAt (sorted : List ℤ) (roiOf : ℤ → ROIData)
    (fps ppm : ℝ) (i : ℕ) : ℝ × ℝ :=
  let dt := 1 / fps
  let roi := roiOf (sorted.getD i 0)
  let x := (roi.x + roi.w / 2) / ppm
  let y := (roi.y + roi.h / 2) / ppm
  if 0 < i ∧ i < sorted.length - 1 then
    let prevFrame := sorted.getD (i - 1) 0
    let nextFrame := sorted.getD (i + 1) 0
    let prevROI := roiOf prevFrame
    let nextROI := roiOf nextFrame
    let xPrev := (prevROI.x + prevROI.w / 2) / ppm
    let yPrev := (prevROI.y + prevROI.h / 2) / ppm
    let xNext := (nextROI.x + nextROI.w / 2) / ppm
    let yNext := (nextROI.y + nextROI.h / 2) / ppm
    let dtTotal := ((nextFrame - prevFrame : ℤ) : ℝ) * dt
    ((xNext - xPrev) / dtTotal, (yNext - yPrev) / dtTotal)
  else if 0 < i then
    let prevFrame := sorted.getD (i - 1) 0
    let prevROI := roiOf prevFrame
    let xPrev := (prevROI.x + prevROI.w / 2) / ppm
    let yPrev := (prevROI.y + prevROI.h / 2) / ppm
    ((x - xPrev) / dt, (y - yPrev) / dt)
  else if i < sorted.length - 1 then
    let nextFrame := sorted.getD (i + 1) 0
    let nextROI := roiOf nextFrame
    let xNext := (nextROI.x + nextROI.w / 2) / ppm
    let yNext := (nextROI.y + nextROI.h / 2) / ppm
    ((xNext - x) / dt, (yNext - y) / dt)
  else (0, 0)

/-- Sample `i` of the `analyzeMotion` loop.  The acceleration of sample
`i + 1` differences against `motionData[i]`, the previously pushed
sample, and divides by `dt = 1 / fps`; sample `0` keeps the
initialisation `ax = ay = acceleration = 0`. -/
noncomputable def sampleAt (sorted : List ℤ) (roiOf : ℤ → ROIData)
    (fps ppm : ℝ) : ℕ → MotionData
  | 0 =>
    let frameIndex := sorted.getD 0 0
    let roi := roiOf frameIndex
    let x := (roi.x + roi.w / 2) / ppm
    let y := (roi.y + roi.h / 2) / ppm
    let time := (frameIndex : ℝ) * (1 / fps)
    let v := velAt sorted roiOf fps ppm 0
    { frame := frameIndex, x := x, y := y, vx := v.1, vy := v.2,
      speed := Real.sqrt (v.1 * v.1 + v.2 * v.2),
      ax := 0, ay := 0, acceleration := 0, time := time }
  | i + 1 =>
    let frameIndex := sorted.getD (i + 1) 0
    let roi := roiOf frameIndex
    let x := (roi.x + roi.w / 2) / ppm
    let y := (roi.y + roi.h / 2) / ppm
    let time := (frameIndex : ℝ) * (1 / fps)
    let v := velAt sorted roiOf fps ppm (i + 1)
    let prevMotion := sampleAt sorted roiOf fps ppm i
    let ax := (v.1 - prevMotion.vx) / (1 / fps)
    let ay := (v.2 - prevMotion.vy) / (1 / fps)
    { frame := frameIndex, x := x, y := y, vx := v.1, vy := v.2,
      speed := Real.sqrt (v.1 * v.1 + v.2 * v.2),
      ax := ax, ay := ay,
      acceleration := Real.sqrt (ax * ax + ay * ay), time := time }

/-- Model of `analyzeMotion(frameROIs, fps, pixelsPerMeter = 100)`:
sort the keys ascending, return `[]` when fewer than two keys remain,
otherwise emit one `MotionData` per sorted key. -/
noncomputable def analyzeMotion (keys : List ℤ) (roiOf : ℤ → ROIData)
    (fps ppm : ℝ) : List MotionData :=
  let sortedFrames := keys.insertionSort (· ≤ ·)
  if sortedFrames.length < 2 then []
  else (List.range sortedFrames.length).map (sampleAt sortedFrames roiOf fps ppm)

/-- Model of `smoothMotionData(data, windowSize = 3)`: identity when
`data.length < windowSize`, otherwise a moving average of every numeric
field over `data.slice(max(0, i - ⌊windowSize/2⌋), min(n, i + ⌊windowSize/2⌋ + 1))`,
with `frame` and `time` copied from `data[i]`.  Natural-number
subtraction makes `i - halfWindow` the source's `Math.max(0, i - halfWindow)`. -/
noncomputable def smoothMotionData (data : List MotionData)
    (windowSize : ℕ) : List MotionData :=
  if data.length < windowSize then data
  else
    let halfWindow := windowSize / 2
    (List.range data.length).map fun i =>
      let start := i - halfWindow
      let stop := min data.length (i + halfWindow + 1)
      let win := (data.drop start).take (stop - start)
      { frame := (data.getD i default).frame
        time := (data.getD i default).time
        x := (win.map fun d => d.x).sum / win.length
        y := (win.map fun d => d.y).sum / win.length
        vx := (win.map fun d => d.vx).sum / win.length
        vy := (win.map fun d => d.vy).sum / win.length
        speed := (win.map fun d => d.speed).sum / win.length
        ax := (win.map fun d => d.ax).sum / win.length
        ay := (win.map fun d => d.ay).sum / win.length
        acceleration := (win.map fun d => d.acceleration).sum / win.length }

/-- Model of the `TrackedROI` interface: a box plus a confidence. -/
structure TrackedROI where
  x : ℝ
  y : ℝ
  w : ℝ
  h : ℝ
  confidence : ℝ

/-- The box fields of a `TrackedROI`, as assigned to `currentROI` after
a successful detection. -/
def roiOfTracked (t : TrackedROI) : ROIData :=
  ⟨t.x, t.y, t.w, t.h⟩

/-- The soft-miss record `{...currentROI, confidence: 0}`. -/
def withConfidenceZero (r : ROIData) : TrackedROI :=
  ⟨r.x, r.y, r.w, r.h, 0⟩

/-- JavaScript `Map.set`: replace the value in place when the key is
already present, otherwise append in insertion order. -/
def mapSet (m : List (ℕ × TrackedROI)) (k : ℕ) (v : TrackedROI) :
    List (ℕ × TrackedROI) :=
  if m.any fun p => p.1 == k then
    m.map fun p => if p.1 = k then (k, v) else p
  else m ++ [(k, v)]

/-- One tracking pass of `trackObjectAcrossFrames` over a list of frame
indices: each step queries the detector with the current hint; a
detection updates both the map and the hint, a miss records the hint
with confidence 0 and carries it forward unchanged. -/
def trackPass (detect : ℕ → ROIData → Option TrackedROI) :
    List ℕ → ROIData → List (ℕ × TrackedROI) → List (ℕ × TrackedROI)
  | [], _, acc => acc
  | i :: rest, currentROI, acc =>
    match detect i currentROI with
    | some detection =>
        trackPass detect rest (roiOfTracked detection) (mapSet acc i detection)
    | none =>
        trackPass detect rest currentROI
          (mapSet acc i (withConfidenceZero currentROI))

/-- Model of `trackObjectAcrossFrames(frames, initialROI, startFrameIndex, ...)`
for a valid anchor: the forward pass visits `startFrameIndex, ..., numFrames - 1`,
then the backward pass resets the hint to `initialROI` and visits
`startFrameIndex - 1, ..., 0`.  The frame images only reach the detector,
so the detector capability is modelled as a function of the frame index
and the hint. -/
def trackObjectAcrossFrames (detect : ℕ → ROIData → Option TrackedROI)
    (numFrames : ℕ) (initialROI : ROIData) (startFrameIndex : ℕ) :
    List (ℕ × TrackedROI) :=
  let forward :=
    trackPass detect (List.range' startFrameIndex (numFrames - startFrameIndex))
      initialROI []
  trackPass detect (List.range startFrameIndex).reverse initialROI forward

/-- One YOLO proposal of `postprocessResults`: a center-format box
`(x, y, w, h)` in 640-space plus its 80 class scores. -/
structure Candidate where
  x : ℝ
  y : ℝ
  w : ℝ
  h : ℝ
  classScores : List ℝ

/-- The `maxScore` loop of `postprocessResults`: the running maximum of
the class scores, starting from 0. -/
noncomputable def maxClassScore (c : Candidate) : ℝ :=
  c.classScores.foldl (fun m s => if s > m then s else m) 0

/-- One iteration of the `postprocessResults` selection loop, threading
the pair `(bestDetection, bestScore)`. -/
noncomputable def postStep (targetCenterX targetCenterY originalWidth originalHeight : ℝ)
    (best : Option TrackedROI × ℝ) (c : Candidate) : Option TrackedROI × ℝ :=
  let maxScore := maxClassScore c
  if maxScore > 0.25 then
    let detCenterX := c.x * originalWidth / 640
    let detCenterY := c.y * originalHeight / 640
    let distance := Real.sqrt ((detCenterX - targetCenterX) ^ 2 +
      (detCenterY - targetCenterY) ^ 2)
    let score := maxScore / (1 + distance / 100)
    if score > best.2 then
      (some { x := (c.x - c.w / 2) * originalWidth / 640,
              y := (c.y - c.h / 2) * originalHeight / 640,
              w := c.w * originalWidth / 640,
              h := c.h * originalHeight / 640,
              confidence := maxScore }, score)
    else best
  else best

/-- Model of `postprocessResults(results, targetROI, originalWidth, originalHeight)`:
fold the selection loop over the proposals from `(null, 0)` and return
the best detection found. -/
noncomputable def postprocessResults (cands : List Candidate) (targetROI : ROIData)
    (originalWidth originalHeight : ℝ) : Option TrackedROI :=
  (cands.foldl
    (postStep (targetROI.x + targetROI.w / 2) (targetROI.y + targetROI.h / 2)
      originalWidth originalHeight)
    (none, 0)).1

/-- The selection score of a candidate, following the spec:
`confidence / (1 + distance_to_hint_center / 100)` with the Euclidean
pixel distance between the candidate center (rescaled from 640-space)
and the hint center. -/
noncomputable def scoreOf (targetROI : ROIData) (originalWidth originalHeight : ℝ)
    (c : Candidate) : ℝ :=
  maxClassScore c /
    (1 + Real.sqrt ((c.x * originalWidth / 640 - (targetROI.x + targetROI.w / 2)) ^ 2 +
      (c.y * originalHeight / 640 - (targetROI.y + targetROI.h / 2)) ^ 2) / 100)

/-- The `TrackedROI` built from a selected candidate: corner-format box
rescaled from 640-space, confidence equal to the max class score. -/
noncomputable def toTrackedROI (originalWidth originalHeight : ℝ)
    (c : Candidate) : TrackedROI :=
  { x := (c.x - c.w / 2) * originalWidth / 640,
    y := (c.y - c.h / 2) * originalHeight / 640,
    w := c.w * originalWidth / 640,
    h := c.h * originalHeight / 640,
    confidence := maxClassScore c }

/-- Specification-side selection: the first element of the list
attaining the maximal value of `f` (a later element replaces the
current best only when strictly greater). -/
noncomputable def selectBest (f : Candidate → ℝ) : List Candidate → Option Candidate
  | [] => none
  | c :: cs =>
    match selectBest f cs with
    | none => some c
    | some b => if f b > f c then some b else some c

/-- Left end of the smoothing sub-range as the claim states it:
`max(0, i - ⌊windowSize/2⌋)` over the integers. -/
def specWindowStart (windowSize i : ℕ) : ℤ :=
  max 0 ((i : ℤ) - (windowSize / 2 : ℕ))

/-- Right end (exclusive) of the smoothing sub-range as the claim
states it: `min(n, i + ⌊windowSize/2⌋ + 1)` over the integers. -/
def specWindowStop (n windowSize i : ℕ) : ℤ :=
  min (n : ℤ) ((i : ℤ) + (windowSize / 2 : ℕ) + 1)

/-- The indices of the claim's smoothing sub-range
`[max(0, i - ⌊w/2⌋), min(n, i + ⌊w/2⌋ + 1))`. -/
def specWindowIdx (n windowSize i : ℕ) : List ℕ :=
  List.range' (specWindowStart windowSize i).toNat
    ((specWindowStop n windowSize i).toNat - (specWindowStart windowSize i).toNat)

/-- Arithmetic mean of a list of reals. -/
noncomputable def meanOver (l : List ℝ) : ℝ :=
  l.sum / l.length

/-- Calibrated x coordinate of a box center: `(box.x + box.w/2) / pixelsPerMeter`. -/
noncomputable def posX (roiOf : ℤ → ROIData) (ppm : ℝ) (k : ℤ) : ℝ :=
  ((roiOf k).x + (roiOf k).w / 2) / ppm

/-- Calibrated y coordinate of a box center: `(box.y + box.h/2) / pixelsPerMeter`. -/
noncomputable def posY (roiOf : ℤ → ROIData) (ppm : ℝ) (k : ℤ) : ℝ :=
  ((roiOf k).y + (roiOf k).h / 2) / ppm

/-! ## Basic lemmas about the embedding -/

theorem getD_eq_getElem_of_lt {α : Type*} [Inhabited α] (l : List α) (i : ℕ)
    (h : i < l.length) : l.getD i default = l[i] := by
  simp [List.getD_eq_getElem?_getD, List.getElem?_eq_getElem h]

theorem insertionSort_of_sorted {l : List ℤ} (h : l.Sorted (· < ·)) :
    l.insertionSort (· ≤ ·) = l :=
  List.Sorted.insertionSort_eq h.le_of_lt

theorem analyzeMotion_eq_map (keys : List ℤ) (roiOf : ℤ → ROIData) (fps ppm : ℝ)
    (h : 2 ≤ keys.length) :
    analyzeMotion keys roiOf fps ppm =
      (List.range (keys.insertionSort (· ≤ ·)).length).map
        (sampleAt (keys.insertionSort (· ≤ ·)) roiOf fps ppm) := by
  have hlen := (List.perm_insertionSort (· ≤ ·) keys).length_eq
  simp only [analyzeMotion]
  rw [if_neg (by omega)]

theorem sampleAt_vx (sorted : List ℤ) (roiOf : ℤ → ROIData) (fps ppm : ℝ) (i : ℕ) :
    (sampleAt sorted roiOf fps ppm i).vx = (velAt sorted roiOf fps ppm i).1 := by
  cases i <;> rfl

theorem sampleAt_vy (sorted : List ℤ) (roiOf : ℤ → ROIData) (fps ppm : ℝ) (i : ℕ) :
    (sampleAt sorted roiOf fps ppm i).vy = (velAt sorted roiOf fps ppm i).2 := by
  cases i <;> rfl

theorem sampleAt_frame (sorted : List ℤ) (roiOf : ℤ → ROIData) (fps ppm : ℝ) (i : ℕ) :
    (sampleAt sorted roiOf fps ppm i).frame = sorted.getD i 0 := by
  cases i <;> rfl

theorem sampleAt_time (sorted : List ℤ) (roiOf : ℤ → ROIData) (fps ppm : ℝ) (i : ℕ) :
    (sampleAt sorted roiOf fps ppm i).time = ((sorted.getD i 0 : ℤ) : ℝ) * (1 / fps) := by
  cases i <;> rfl

theorem sampleAt_speed (sorted : List ℤ) (roiOf : ℤ → ROIData) (fps ppm : ℝ) (i : ℕ) :
    (sampleAt sorted roiOf fps ppm i).speed =
      Real.sqrt ((velAt sorted roiOf fps ppm i).1 * (velAt sorted roiOf fps ppm i).1 +
        (velAt sorted roiOf fps ppm i).2 * (velAt sorted roiOf fps ppm i).2) := by
  cases i <;> rfl

theorem sampleAt_ax_zero (sorted : List ℤ) (roiOf : ℤ → ROIData) (fps ppm : ℝ) :
    (sampleAt sorted roiOf fps ppm 0).ax = 0 := rfl

theorem sampleAt_ay_zero (sorted : List ℤ) (roiOf : ℤ → ROIData) (fps ppm : ℝ) :
    (sampleAt sorted roiOf fps ppm 0).ay = 0 := rfl

theorem sampleAt_acceleration_zero (sorted : List ℤ) (roiOf : ℤ → ROIData) (fps ppm : ℝ) :
    (sampleAt sorted roiOf fps ppm 0).acceleration = 0 := rfl

theorem sampleAt_ax_succ (sorted : List ℤ) (roiOf : ℤ → ROIData) (fps ppm : ℝ) (i : ℕ) :
    (sampleAt sorted roiOf fps ppm (i + 1)).ax =
      ((velAt sorted roiOf fps ppm (i + 1)).1 - (velAt sorted roiOf fps ppm i).1) / (1 / fps) := by
  show ((velAt sorted roiOf fps ppm (i + 1)).1 -
      (sampleAt sorted roiOf fps ppm i).vx) / (1 / fps) = _
  rw [sampleAt_vx]

theorem sampleAt_ay_succ (sorted : List ℤ) (roiOf : ℤ → ROIData) (fps ppm : ℝ) (i : ℕ) :
    (sampleAt sorted roiOf fps ppm (i + 1)).ay =
      ((velAt sorted roiOf fps ppm (i + 1)).2 - (velAt sorted roiOf fps ppm i).2) / (1 / fps) := by
  show ((velAt sorted roiOf fps ppm (i + 1)).2 -
      (sampleAt sorted roiOf fps ppm i).vy) / (1 / fps) = _
  rw [sampleAt_vy]

theorem sampleAt_acceleration_succ (sorted : List ℤ) (roiOf : ℤ → ROIData) (fps ppm : ℝ) (i : ℕ) :
    (sampleAt sorted roiOf fps ppm (i + 1)).acceleration =
      Real.sqrt ((sampleAt sorted roiOf fps ppm (i + 1)).ax *
          (sampleAt sorted roiOf fps ppm (i + 1)).ax +
        (sampleAt sorted roiOf fps ppm (i + 1)).ay *
          (sampleAt sorted roiOf fps ppm (i + 1)).ay) := rfl

theorem velAt_first (sorted : List ℤ) (roiOf : ℤ → ROIData) (fps ppm : ℝ)
    (h : 2 ≤ sorted.length) :
    velAt sorted roiOf fps ppm 0 =
      ((posX roiOf ppm (sorted.getD 1 0) - posX roiOf ppm (sorted.getD 0 0)) / (1 / fps),
       (posY roiOf ppm (sorted.getD 1 0) - posY roiOf ppm (sorted.getD 0 0)) / (1 / fps)) := by
  simp only [velAt, posX, posY]
  rw [if_neg (by omega), if_neg (by omega), if_pos (by omega)]

theorem velAt_backward (sorted : List ℤ) (roiOf : ℤ → ROIData) (fps ppm : ℝ) (i : ℕ)
    (h0 : 0 < i) (h1 : ¬ i < sorted.length - 1) :
    velAt sorted roiOf fps ppm i =
      ((posX roiOf ppm (sorted.getD i 0) - posX roiOf ppm (sorted.getD (i - 1) 0)) / (1 / fps),
       (posY roiOf ppm (sorted.getD i 0) - posY roiOf ppm (sorted.getD (i - 1) 0)) / (1 / fps)) := by
  simp only [velAt, posX, posY]
  rw [if_neg (by omega), if_pos h0]

theorem velAt_central (sorted : List ℤ) (roiOf : ℤ → ROIData) (fps ppm : ℝ) (i : ℕ)
    (h0 : 0 < i) (h1 : i < sorted.length - 1) :
    velAt sorted roiOf fps ppm i =
      ((posX roiOf ppm (sorted.getD (i + 1) 0) - posX roiOf ppm (sorted.getD (i - 1) 0)) /
         (((sorted.getD (i + 1) 0 - sorted.getD (i - 1) 0 : ℤ) : ℝ) * (1 / fps)),
       (posY roiOf ppm (sorted.getD (i + 1) 0) - posY roiOf ppm (sorted.getD (i - 1) 0)) /
         (((sorted.getD (i + 1) 0 - sorted.getD (i - 1) 0 : ℤ) : ℝ) * (1 / fps))) := by
  simp only [velAt, posX, posY]
  rw [if_pos ⟨h0, h1⟩]

theorem analyzeMotion_getD_sort (keys : List ℤ) (roiOf : ℤ → ROIData) (fps ppm : ℝ)
    (h2 : 2 ≤ keys.length) (i : ℕ) (hi : i < keys.length) :
    (analyzeMotion keys roiOf fps ppm).getD i default =
      sampleAt (keys.insertionSort (· ≤ ·)) roiOf fps ppm i := by
  have hlen := (List.perm_insertionSort (· ≤ ·) keys).length_eq
  rw [analyzeMotion_eq_map keys roiOf fps ppm h2]
  rw [getD_eq_getElem_of_lt _ i (by simp only [List.length_map, List.length_range]; omega)]
  simp

theorem analyzeMotion_getD (keys : List ℤ) (roiOf : ℤ → ROIData) (fps ppm : ℝ)
    (hsort : keys.Sorted (· < ·)) (h2 : 2 ≤ keys.length) (i : ℕ) (hi : i < keys.length) :
    (analyzeMotion keys roiOf fps ppm).getD i default =
      sampleAt keys roiOf fps ppm i := by
  rw [analyzeMotion_getD_sort keys roiOf fps ppm h2 i hi, insertionSort_of_sorted hsort]

/-! ## Claim theorems -/

/-- C8: for every tracked sequence with fewer than two entries, the
kinematics estimator returns the empty sequence of motion samples. -/
theorem analyzeMotion_short_input (keys : List ℤ) (roiOf : ℤ → ROIData) (fps ppm : ℝ)
    (h : keys.length < 2) : analyzeMotion keys roiOf fps ppm = [] := by
  have hlen := (List.perm_insertionSort (· ≤ ·) keys).length_eq
  simp only [analyzeMotion]
  rw [if_pos (by omega)]

/-- C8 witness: a one-entry sequence yields no motion samples. -/
theorem analyzeMotion_short_input_witness :
    analyzeMotion [3] (fun _ => ⟨0, 0, 0, 0⟩) 10 100 = [] :=
  analyzeMotion_short_input [3] (fun _ => ⟨0, 0, 0, 0⟩) 10 100 (by decide)

/-- C4: for every sorted key sequence with at least two keys and every
interior index `0 < i < n - 1`, the velocity is the central difference
over the actual neighboring keys, divided by the true elapsed time
`(k_{i+1} - k_{i-1}) / fps`, with positions taken as the calibrated box
centers. -/
theorem analyzeMotion_interior_velocity (keys : List ℤ) (roiOf : ℤ → ROIData)
    (fps ppm : ℝ) (hsort : keys.Sorted (· < ·)) (h2 : 2 ≤ keys.length) :
    ∀ i, 0 < i → i < keys.length - 1 →
      ((analyzeMotion keys roiOf fps ppm).getD i default).vx =
        (posX roiOf ppm (keys.getD (i + 1) 0) - posX roiOf ppm (keys.getD (i - 1) 0)) /
          (((keys.getD (i + 1) 0 - keys.getD (i - 1) 0 : ℤ) : ℝ) / fps) ∧
      ((analyzeMotion keys roiOf fps ppm).getD i default).vy =
        (posY roiOf ppm (keys.getD (i + 1) 0) - posY roiOf ppm (keys.getD (i - 1) 0)) /
          (((keys.getD (i + 1) 0 - keys.getD (i - 1) 0 : ℤ) : ℝ) / fps) := by
  intro i hi0 hi1
  rw [analyzeMotion_getD keys roiOf fps ppm hsort h2 i (by omega)]
  rw [sampleAt_vx, sampleAt_vy, velAt_central keys roiOf fps ppm i hi0 hi1, mul_one_div]
  exact ⟨rfl, rfl⟩

/-- C4 witness: the interior sample of a three-key track obeys the
central-difference formula. -/
theorem analyzeMotion_interior_velocity_witness :
    ((analyzeMotion [0, 1, 2] (fun _ => ⟨4, 4, 2, 2⟩) 10 100).getD 1 default).vx =
      (posX (fun _ => ⟨4, 4, 2, 2⟩) 100 (([0, 1, 2] : List ℤ).getD 2 0) -
        posX (fun _ => ⟨4, 4, 2, 2⟩) 100 (([0, 1, 2] : List ℤ).getD 0 0)) /
        (((([0, 1, 2] : List ℤ).getD 2 0 - ([0, 1, 2] : List ℤ).getD 0 0 : ℤ) : ℝ) / 10) :=
  (analyzeMotion_interior_velocity [0, 1, 2] (fun _ => ⟨4, 4, 2, 2⟩) 10 100
    (by decide) (by decide) 1 (by decide) (by decide)).1

/-- C1 counterexample: with the non-contiguous keys 0 and 2, the code
divides the first-sample velocity by `1/fps`, not by the true elapsed
time `(k_1 - k_0)/fps`, so the claimed formula fails. -/
theorem analyzeMotion_first_velocity_counterexample :
    ¬ (((analyzeMotion [0, 2]
          (fun k => if k = 2 then ⟨2, 0, 0, 0⟩ else ⟨0, 0, 0, 0⟩) 1 1).getD 0 default).vx =
        (posX (fun k => if k = 2 then ⟨2, 0, 0, 0⟩ else ⟨0, 0, 0, 0⟩) 1 2 -
          posX (fun k => if k = 2 then ⟨2, 0, 0, 0⟩ else ⟨0, 0, 0, 0⟩) 1 0) /
          ((((2 : ℤ) - (0 : ℤ) : ℤ) : ℝ) / 1)) := by
  rw [analyzeMotion_getD [0, 2] _ 1 1 (by decide) (by decide) 0 (by decide)]
  rw [sampleAt_vx, velAt_first _ _ _ _ (by decide)]
  norm_num [posX]

/-- C1 (amended): the velocity of the first sample is
`(pos(k_1) - pos(k_0)) / (1/fps)` and the velocity of the last sample is
`(pos(k_{n-1}) - pos(k_{n-2})) / (1/fps)`: the boundary differences are
divided by the fixed single-frame step `1/fps`, not by the true elapsed
time, so they agree with the claimed formulas exactly when the
neighboring keys are contiguous. -/
theorem analyzeMotion_boundary_velocity (keys : List ℤ) (roiOf : ℤ → ROIData)
    (fps ppm : ℝ) (hsort : keys.Sorted (· < ·)) (h2 : 2 ≤ keys.length) :
    (((analyzeMotion keys roiOf fps ppm).getD 0 default).vx =
        (posX roiOf ppm (keys.getD 1 0) - posX roiOf ppm (keys.getD 0 0)) / (1 / fps) ∧
      ((analyzeMotion keys roiOf fps ppm).getD 0 default).vy =
        (posY roiOf ppm (keys.getD 1 0) - posY roiOf ppm (keys.getD 0 0)) / (1 / fps)) ∧
    (((analyzeMotion keys roiOf fps ppm).getD (keys.length - 1) default).vx =
        (posX roiOf ppm (keys.getD (keys.length - 1) 0) -
          posX roiOf ppm (keys.getD (keys.length - 2) 0)) / (1 / fps) ∧
      ((analyzeMotion keys roiOf fps ppm).getD (keys.length - 1) default).vy =
        (posY roiOf ppm (keys.getD (keys.length - 1) 0) -
          posY roiOf ppm (keys.getD (keys.length - 2) 0)) / (1 / fps)) := by
  constructor
  · rw [analyzeMotion_getD keys roiOf fps ppm hsort h2 0 (by omega)]
    rw [sampleAt_vx, sampleAt_vy, velAt_first keys roiOf fps ppm h2]
    exact ⟨rfl, rfl⟩
  · rw [analyzeMotion_getD keys roiOf fps ppm hsort h2 (keys.length - 1) (by omega)]
    rw [sampleAt_vx, sampleAt_vy,
      velAt_backward keys roiOf fps ppm (keys.length - 1) (by omega) (by omega)]
    have e : keys.length - 1 - 1 = keys.length - 2 := by omega
    rw [e]
    exact ⟨rfl, rfl⟩

/-- C1 witness: the amended boundary formulas at a concrete two-key track. -/
theorem analyzeMotion_boundary_velocity_witness :
    ((analyzeMotion [0, 1] (fun _ => ⟨4, 4, 2, 2⟩) 10 100).getD 0 default).vx =
      (posX (fun _ => ⟨4, 4, 2, 2⟩) 100 (([0, 1] : List ℤ).getD 1 0) -
        posX (fun _ => ⟨4, 4, 2, 2⟩) 100 (([0, 1] : List ℤ).getD 0 0)) / (1 / 10) :=
  (analyzeMotion_boundary_velocity [0, 1] (fun _ => ⟨4, 4, 2, 2⟩) 10 100
    (by decide) (by decide)).1.1

/-- C2 counterexample: with keys 0, 2, 3 the code divides the
acceleration at sample 1 by `1/fps`, not by the true elapsed time
`(k_1 - k_0)/fps = 2/fps`, so the claimed formula fails. -/
theorem analyzeMotion_acceleration_counterexample :
    ¬ (((analyzeMotion [0, 2, 3]
          (fun k => if k = 3 then ⟨3, 0, 0, 0⟩ else ⟨0, 0, 0, 0⟩) 1 1).getD 1 default).ax =
        (((analyzeMotion [0, 2, 3]
            (fun k => if k = 3 then ⟨3, 0, 0, 0⟩ else ⟨0, 0, 0, 0⟩) 1 1).getD 1 default).vx -
          ((analyzeMotion [0, 2, 3]
            (fun k => if k = 3 then ⟨3, 0, 0, 0⟩ else ⟨0, 0, 0, 0⟩) 1 1).getD 0 default).vx) /
          ((((2 : ℤ) - (0 : ℤ) : ℤ) : ℝ) / 1)) := by
  have hs : ([0, 2, 3] : List ℤ).Sorted (· < ·) := by decide
  set F := fun k : ℤ =>
    if k = 3 then (⟨3, 0, 0, 0⟩ : ROIData) else (⟨0, 0, 0, 0⟩ : ROIData) with hF
  rw [analyzeMotion_getD _ _ _ _ hs (by decide) 1 (by decide),
    analyzeMotion_getD _ _ _ _ hs (by decide) 0 (by decide)]
  have hax : (sampleAt [0, 2, 3] F 1 1 1).ax =
      ((velAt [0, 2, 3] F 1 1 1).1 - (velAt [0, 2, 3] F 1 1 0).1) / (1 / 1) :=
    sampleAt_ax_succ [0, 2, 3] F 1 1 0
  rw [hax, sampleAt_vx, sampleAt_vx]
  rw [velAt_central [0, 2, 3] F 1 1 1 (by decide) (by decide),
    velAt_first [0, 2, 3] F 1 1 (by decide)]
  have g2 : ([0, 2, 3] : List ℤ).getD (1 + 1) 0 = 3 := rfl
  have g0 : ([0, 2, 3] : List ℤ).getD (1 - 1) 0 = 0 := rfl
  have g1 : ([0, 2, 3] : List ℤ).getD 1 0 = 2 := rfl
  rw [g2, g0, g1]
  norm_num [posX, hF]

/-- C2 (amended): for every sorted key sequence with at least two keys,
the acceleration of sample `i ≥ 1` is `(v_i - v_{i-1}) / (1/fps)` — the
velocity difference is divided by the fixed single-frame step `1/fps`,
not by the true elapsed time between the neighboring keys, agreeing with
the claimed formula exactly when those keys are contiguous — and the
first sample has `ax = ay = acceleration = 0` exactly. -/
theorem analyzeMotion_acceleration (keys : List ℤ) (roiOf : ℤ → ROIData)
    (fps ppm : ℝ) (hsort : keys.Sorted (· < ·)) (h2 : 2 ≤ keys.length) :
    (∀ i, 0 < i → i < keys.length →
      ((analyzeMotion keys roiOf fps ppm).getD i default).ax =
        (((analyzeMotion keys roiOf fps ppm).getD i default).vx -
          ((analyzeMotion keys roiOf fps ppm).getD (i - 1) default).vx) / (1 / fps) ∧
      ((analyzeMotion keys roiOf fps ppm).getD i default).ay =
        (((analyzeMotion keys roiOf fps ppm).getD i default).vy -
          ((analyzeMotion keys roiOf fps ppm).getD (i - 1) default).vy) / (1 / fps)) ∧
    ((analyzeMotion keys roiOf fps ppm).getD 0 default).ax = 0 ∧
    ((analyzeMotion keys roiOf fps ppm).getD 0 default).ay = 0 ∧
    ((analyzeMotion keys roiOf fps ppm).getD 0 default).acceleration = 0 := by
  constructor
  · intro i hi0 hilt
    obtain ⟨j, rfl⟩ : ∃ j, i = j + 1 := ⟨i - 1, by omega⟩
    simp only [Nat.add_sub_cancel]
    rw [analyzeMotion_getD keys roiOf fps ppm hsort h2 (j + 1) (by omega),
      analyzeMotion_getD keys roiOf fps ppm hsort h2 j (by omega)]
    rw [sampleAt_ax_succ, sampleAt_ay_succ, sampleAt_vx, sampleAt_vx,
      sampleAt_vy, sampleAt_vy]
    exact ⟨rfl, rfl⟩
  · rw [analyzeMotion_getD keys roiOf fps ppm hsort h2 0 (by omega)]
    exact ⟨rfl, rfl, rfl⟩

/-- C2 witness: the amended acceleration formula at sample 1 of a
concrete two-key track, and the zero acceleration of its first sample. -/
theorem analyzeMotion_acceleration_witness :
    (((analyzeMotion [0, 1] (fun _ => ⟨4, 4, 2, 2⟩) 10 100).getD 1 default).ax =
      ((((analyzeMotion [0, 1] (fun _ => ⟨4, 4, 2, 2⟩) 10 100).getD 1 default).vx -
        ((analyzeMotion [0, 1] (fun _ => ⟨4, 4, 2, 2⟩) 10 100).getD 0 default).vx) / (1 / 10))) ∧
    ((analyzeMotion [0, 1] (fun _ => ⟨4, 4, 2, 2⟩) 10 100).getD 0 default).acceleration = 0 :=
  ⟨((analyzeMotion_acceleration [0, 1] (fun _ => ⟨4, 4, 2, 2⟩) 10 100
      (by decide) (by decide)).1 1 (by decide) (by decide)).1,
   (analyzeMotion_acceleration [0, 1] (fun _ => ⟨4, 4, 2, 2⟩) 10 100
      (by decide) (by decide)).2.2.2⟩

/-- C10: for every tracked sequence with exactly two entries and
positive fps, both produced samples carry the same velocity vector, and
both have `ax = ay = acceleration = 0`. -/
theorem analyzeMotion_two_entry (keys : List ℤ) (roiOf : ℤ → ROIData) (fps ppm : ℝ)
    (h2 : keys.length = 2) (hnd : keys.Nodup) (hfps : 0 < fps) :
    ((analyzeMotion keys roiOf fps ppm).getD 0 default).vx =
      ((analyzeMotion keys roiOf fps ppm).getD 1 default).vx ∧
    ((analyzeMotion keys roiOf fps ppm).getD 0 default).vy =
      ((analyzeMotion keys roiOf fps ppm).getD 1 default).vy ∧
    ∀ m ∈ analyzeMotion keys roiOf fps ppm,
      m.ax = 0 ∧ m.ay = 0 ∧ m.acceleration = 0 := by
  have hlen := (List.perm_insertionSort (· ≤ ·) keys).length_eq
  have hv : velAt (keys.insertionSort (· ≤ ·)) roiOf fps ppm 0 =
      velAt (keys.insertionSort (· ≤ ·)) roiOf fps ppm 1 := by
    rw [velAt_first (keys.insertionSort (· ≤ ·)) roiOf fps ppm (by omega),
      velAt_backward (keys.insertionSort (· ≤ ·)) roiOf fps ppm 1 (by omega) (by omega)]
  refine ⟨?_, ?_, ?_⟩
  · rw [analyzeMotion_getD_sort keys roiOf fps ppm (by omega) 0 (by omega),
      analyzeMotion_getD_sort keys roiOf fps ppm (by omega) 1 (by omega),
      sampleAt_vx, sampleAt_vx, hv]
  · rw [analyzeMotion_getD_sort keys roiOf fps ppm (by omega) 0 (by omega),
      analyzeMotion_getD_sort keys roiOf fps ppm (by omega) 1 (by omega),
      sampleAt_vy, sampleAt_vy, hv]
  · rw [analyzeMotion_eq_map keys roiOf fps ppm (by omega)]
    have hr : List.range (keys.insertionSort (· ≤ ·)).length = [0, 1] := by
      rw [hlen, h2]; decide
    rw [hr]
    intro m hm
    simp only [List.map_cons, List.map_nil, List.mem_cons,
      List.not_mem_nil, or_false] at hm
    have hax1 : (sampleAt (keys.insertionSort (· ≤ ·)) roiOf fps ppm 1).ax =
        ((velAt (keys.insertionSort (· ≤ ·)) roiOf fps ppm 1).1 -
          (velAt (keys.insertionSort (· ≤ ·)) roiOf fps ppm 0).1) / (1 / fps) :=
      sampleAt_ax_succ (keys.insertionSort (· ≤ ·)) roiOf fps ppm 0
    have hay1 : (sampleAt (keys.insertionSort (· ≤ ·)) roiOf fps ppm 1).ay =
        ((velAt (keys.insertionSort (· ≤ ·)) roiOf fps ppm 1).2 -
          (velAt (keys.insertionSort (· ≤ ·)) roiOf fps ppm 0).2) / (1 / fps) :=
      sampleAt_ay_succ (keys.insertionSort (· ≤ ·)) roiOf fps ppm 0
    have hacc1 : (sampleAt (keys.insertionSort (· ≤ ·)) roiOf fps ppm 1).acceleration =
        Real.sqrt ((sampleAt (keys.insertionSort (· ≤ ·)) roiOf fps ppm 1).ax *
            (sampleAt (keys.insertionSort (· ≤ ·)) roiOf fps ppm 1).ax +
          (sampleAt (keys.insertionSort (· ≤ ·)) roiOf fps ppm 1).ay *
            (sampleAt (keys.insertionSort (· ≤ ·)) roiOf fps ppm 1).ay) :=
      sampleAt_acceleration_succ (keys.insertionSort (· ≤ ·)) roiOf fps ppm 0
    rcases hm with hm | hm
    · rw [hm]
      exact ⟨rfl, rfl, rfl⟩
    · rw [hm]
      have hz1 : (sampleAt (keys.insertionSort (· ≤ ·)) roiOf fps ppm 1).ax = 0 := by
        rw [hax1, ← hv, sub_self, zero_div]
      have hz2 : (sampleAt (keys.insertionSort (· ≤ ·)) roiOf fps ppm 1).ay = 0 := by
        rw [hay1, ← hv, sub_self, zero_div]
      refine ⟨hz1, hz2, ?_⟩
      rw [hacc1, hz1, hz2]
      simp

/-- C10 witness: a concrete two-entry track with equal velocities at
both samples. -/
theorem analyzeMotion_two_entry_witness :
    ((analyzeMotion [3, 5] (fun _ => ⟨4, 4, 2, 2⟩) 10 100).getD 0 default).vx =
      ((analyzeMotion [3, 5] (fun _ => ⟨4, 4, 2, 2⟩) 10 100).getD 1 default).vx :=
  (analyzeMotion_two_entry [3, 5] (fun _ => ⟨4, 4, 2, 2⟩) 10 100
    (by decide) (by decide) (by norm_num)).1

/-- C3 (amended): every sample produced by the kinematics estimator has
`speed` equal to the Euclidean norm of `(vx, vy)` and `acceleration`
equal to the Euclidean norm of `(ax, ay)`.  The smoother averages the
`speed` and `acceleration` fields independently of the component
fields, so its output does not satisfy the invariant in general. -/
theorem analyzeMotion_norm_invariant (keys : List ℤ) (roiOf : ℤ → ROIData) (fps ppm : ℝ) :
    ∀ m ∈ analyzeMotion keys roiOf fps ppm,
      m.speed = Real.sqrt (m.vx * m.vx + m.vy * m.vy) ∧
      m.acceleration = Real.sqrt (m.ax * m.ax + m.ay * m.ay) := by
  intro m hm
  simp only [analyzeMotion] at hm
  by_cases h : (keys.insertionSort (· ≤ ·)).length < 2
  · rw [if_pos h] at hm
    cases hm
  · rw [if_neg h] at hm
    simp only [List.mem_map, List.mem_range] at hm
    obtain ⟨i, hi, rfl⟩ := hm
    refine ⟨?_, ?_⟩
    · rw [sampleAt_speed, sampleAt_vx, sampleAt_vy]
    · cases i with
      | zero =>
        rw [sampleAt_acceleration_zero, sampleAt_ax_zero, sampleAt_ay_zero]
        simp
      | succ j => exact sampleAt_acceleration_succ _ _ _ _ j

/-- C3 witness: the invariant at the first sample of a concrete track. -/
theorem analyzeMotion_norm_invariant_witness :
    ((analyzeMotion [0, 1] (fun _ => ⟨4, 4, 2, 2⟩) 10 100).getD 0 default).speed =
      Real.sqrt (((analyzeMotion [0, 1] (fun _ => ⟨4, 4, 2, 2⟩) 10 100).getD 0 default).vx *
          ((analyzeMotion [0, 1] (fun _ => ⟨4, 4, 2, 2⟩) 10 100).getD 0 default).vx +
        ((analyzeMotion [0, 1] (fun _ => ⟨4, 4, 2, 2⟩) 10 100).getD 0 default).vy *
          ((analyzeMotion [0, 1] (fun _ => ⟨4, 4, 2, 2⟩) 10 100).getD 0 default).vy) := by
  refine (analyzeMotion_norm_invariant [0, 1] (fun _ => ⟨4, 4, 2, 2⟩) 10 100
    ((analyzeMotion [0, 1] (fun _ => ⟨4, 4, 2, 2⟩) 10 100).getD 0 default) ?_).1
  rw [analyzeMotion_getD [0, 1] (fun _ => ⟨4, 4, 2, 2⟩) 10 100 (by decide) (by decide) 0
    (by decide)]
  rw [analyzeMotion_eq_map [0, 1] (fun _ => ⟨4, 4, 2, 2⟩) 10 100 (by decide),
    insertionSort_of_sorted (by decide)]
  exact List.mem_map_of_mem _ (by simp)

/-- C3 counterexample: running the pipeline on three keys with centers
0, 1, 0 and smoothing with the default window 3 produces a middle
sample whose averaged speed is 2/3 while its averaged velocity
components are both 0, so `speed` is not the norm of `(vx, vy)` on the
smoother's output. -/
theorem smoothMotionData_norm_counterexample :
    ¬ (((smoothMotionData (analyzeMotion [0, 1, 2]
          (fun k => if k = 1 then ⟨1, 0, 0, 0⟩ else ⟨0, 0, 0, 0⟩) 1 1) 3).getD 1 default).speed =
        Real.sqrt
          (((smoothMotionData (analyzeMotion [0, 1, 2]
              (fun k => if k = 1 then ⟨1, 0, 0, 0⟩ else ⟨0, 0, 0, 0⟩) 1 1) 3).getD 1 default).vx *
            ((smoothMotionData (analyzeMotion [0, 1, 2]
              (fun k => if k = 1 then ⟨1, 0, 0, 0⟩ else ⟨0, 0, 0, 0⟩) 1 1) 3).getD 1 default).vx +
          ((smoothMotionData (analyzeMotion [0, 1, 2]
              (fun k => if k = 1 then ⟨1, 0, 0, 0⟩ else ⟨0, 0, 0, 0⟩) 1 1) 3).getD 1 default).vy *
            ((smoothMotionData (analyzeMotion [0, 1, 2]
              (fun k => if k = 1 then ⟨1, 0, 0, 0⟩ else ⟨0, 0, 0, 0⟩) 1 1) 3).getD 1 default).vy)) := by
  set F := fun k : ℤ =>
    if k = 1 then (⟨1, 0, 0, 0⟩ : ROIData) else (⟨0, 0, 0, 0⟩ : ROIData) with hF
  have h1 : analyzeMotion [0, 1, 2] F 1 1 =
      [sampleAt [0, 1, 2] F 1 1 0, sampleAt [0, 1, 2] F 1 1 1, sampleAt [0, 1, 2] F 1 1 2] := by
    rw [analyzeMotion_eq_map [0, 1, 2] F 1 1 (by decide), insertionSort_of_sorted (by decide)]
    rfl
  have hvx0 : (sampleAt [0, 1, 2] F 1 1 0).vx = 1 := by
    rw [sampleAt_vx, velAt_first [0, 1, 2] F 1 1 (by decide)]
    norm_num [posX, hF]
  have hvy0 : (sampleAt [0, 1, 2] F 1 1 0).vy = 0 := by
    rw [sampleAt_vy, velAt_first [0, 1, 2] F 1 1 (by decide)]
    norm_num [posY, hF]
  have hsp0 : (sampleAt [0, 1, 2] F 1 1 0).speed = 1 := by
    rw [sampleAt_speed, velAt_first [0, 1, 2] F 1 1 (by decide)]
    norm_num [posX, posY, hF, Real.sqrt_one]
  have hvx1 : (sampleAt [0, 1, 2] F 1 1 1).vx = 0 := by
    rw [sampleAt_vx, velAt_central [0, 1, 2] F 1 1 1 (by decide) (by decide)]
    norm_num [posX, hF]
  have hvy1 : (sampleAt [0, 1, 2] F 1 1 1).vy = 0 := by
    rw [sampleAt_vy, velAt_central [0, 1, 2] F 1 1 1 (by decide) (by decide)]
    norm_num [posY, hF]
  have hsp1 : (sampleAt [0, 1, 2] F 1 1 1).speed = 0 := by
    rw [sampleAt_speed, velAt_central [0, 1, 2] F 1 1 1 (by decide) (by decide)]
    norm_num [posX, posY, hF, Real.sqrt_zero]
  have hvx2 : (sampleAt [0, 1, 2] F 1 1 2).vx = -1 := by
    rw [sampleAt_vx, velAt_backward [0, 1, 2] F 1 1 2 (by decide) (by decide)]
    norm_num [posX, hF]
  have hvy2 : (sampleAt [0, 1, 2] F 1 1 2).vy = 0 := by
    rw [sampleAt_vy, velAt_backward [0, 1, 2] F 1 1 2 (by decide) (by decide)]
    norm_num [posY, hF]
  have hsp2 : (sampleAt [0, 1, 2] F 1 1 2).speed = 1 := by
    rw [sampleAt_speed, velAt_backward [0, 1, 2] F 1 1 2 (by decide) (by decide)]
    norm_num [posX, posY, hF]
  rw [h1]
  have hspeed : ((smoothMotionData [sampleAt [0, 1, 2] F 1 1 0, sampleAt [0, 1, 2] F 1 1 1,
      sampleAt [0, 1, 2] F 1 1 2] 3).getD 1 default).speed =
      ((sampleAt [0, 1, 2] F 1 1 0).speed + ((sampleAt [0, 1, 2] F 1 1 1).speed +
        ((sampleAt [0, 1, 2] F 1 1 2).speed + 0))) / ((3 : ℕ) : ℝ) := rfl
  have hvx : ((smoothMotionData [sampleAt [0, 1, 2] F 1 1 0, sampleAt [0, 1, 2] F 1 1 1,
      sampleAt [0, 1, 2] F 1 1 2] 3).getD 1 default).vx =
      ((sampleAt [0, 1, 2] F 1 1 0).vx + ((sampleAt [0, 1, 2] F 1 1 1).vx +
        ((sampleAt [0, 1, 2] F 1 1 2).vx + 0))) / ((3 : ℕ) : ℝ) := rfl
  have hvy : ((smoothMotionData [sampleAt [0, 1, 2] F 1 1 0, sampleAt [0, 1, 2] F 1 1 1,
      sampleAt [0, 1, 2] F 1 1 2] 3).getD 1 default).vy =
      ((sampleAt [0, 1, 2] F 1 1 0).vy + ((sampleAt [0, 1, 2] F 1 1 1).vy +
        ((sampleAt [0, 1, 2] F 1 1 2).vy + 0))) / ((3 : ℕ) : ℝ) := rfl
  rw [hspeed, hvx, hvy, hvx0, hvy0, hsp0, hvx1, hvy1, hsp1, hvx2, hvy2, hsp2]
  norm_num [Real.sqrt_zero]

theorem analyzeMotion_map_frame (keys : List ℤ) (roiOf : ℤ → ROIData) (fps ppm : ℝ)
    (h2 : 2 ≤ keys.length) :
    (analyzeMotion keys roiOf fps ppm).map (fun m => m.frame) =
      keys.insertionSort (· ≤ ·) := by
  rw [analyzeMotion_eq_map keys roiOf fps ppm h2, List.map_map]
  apply List.ext_getElem
  · simp
  · intro i hi1 hi2
    simp only [List.getElem_map, List.getElem_range, Function.comp_apply]
    rw [sampleAt_frame]
    rw [List.getD_eq_getElem?_getD, List.getElem?_eq_getElem hi2, Option.getD_some]

/-- C7: for every tracked sequence with at least two distinct keys and
positive fps and pixelsPerMeter, the estimator returns exactly one
sample per key, ordered by strictly ascending frame; the i-th sample
carries the i-th smallest key as its frame and time `k_i / fps` exactly;
and any insertion order of the same keys produces the same output. -/
theorem analyzeMotion_shape (keys : List ℤ) (roiOf : ℤ → ROIData) (fps ppm : ℝ)
    (h2 : 2 ≤ keys.length) (hnd : keys.Nodup) (hfps : 0 < fps) (hppm : 0 < ppm) :
    (analyzeMotion keys roiOf fps ppm).length = keys.length ∧
    ((analyzeMotion keys roiOf fps ppm).map (fun m => m.frame)).Sorted (· < ·) ∧
    (∀ i < keys.length,
      ((analyzeMotion keys roiOf fps ppm).getD i default).frame =
        (keys.insertionSort (· ≤ ·)).getD i 0 ∧
      ((analyzeMotion keys roiOf fps ppm).getD i default).time =
        (((keys.insertionSort (· ≤ ·)).getD i 0 : ℤ) : ℝ) / fps) ∧
    ∀ keys2 : List ℤ, keys2.Perm keys →
      analyzeMotion keys2 roiOf fps ppm = analyzeMotion keys roiOf fps ppm := by
  have hlen := (List.perm_insertionSort (· ≤ ·) keys).length_eq
  refine ⟨?_, ?_, ?_, ?_⟩
  · rw [analyzeMotion_eq_map keys roiOf fps ppm h2]
    simp [hlen]
  · rw [analyzeMotion_map_frame keys roiOf fps ppm h2]
    refine List.Sorted.lt_of_le (List.sorted_insertionSort _ _) ?_
    exact ((List.perm_insertionSort (· ≤ ·) keys).nodup_iff).mpr hnd
  · intro i hi
    rw [analyzeMotion_getD_sort keys roiOf fps ppm h2 i hi]
    exact ⟨sampleAt_frame _ _ _ _ _, by rw [sampleAt_time, mul_one_div]⟩
  · intro keys2 hperm
    have hsorteq : keys2.insertionSort (· ≤ ·) = keys.insertionSort (· ≤ ·) :=
      List.eq_of_perm_of_sorted
        (((List.perm_insertionSort (· ≤ ·) keys2).trans hperm).trans
          (List.perm_insertionSort (· ≤ ·) keys).symm)
        (List.sorted_insertionSort _ _) (List.sorted_insertionSort _ _)
    simp only [analyzeMotion]
    rw [hsorteq]

/-- C7 witness: a concrete two-key sequence, given in descending
insertion order, yields exactly two samples. -/
theorem analyzeMotion_shape_witness :
    (analyzeMotion [7, 4] (fun _ => ⟨4, 4, 2, 2⟩) 10 100).length =
      ([7, 4] : List ℤ).length :=
  (analyzeMotion_shape [7, 4] (fun _ => ⟨4, 4, 2, 2⟩) 10 100
    (by decide) (by decide) (by norm_num) (by norm_num)).1

theorem drop_take_eq_map_range' (data : List MotionData) (s k : ℕ)
    (h : s + k ≤ data.length) :
    (data.drop s).take k = (List.range' s k).map fun j => data.getD j default := by
  apply List.ext_getElem
  · simp only [List.length_take, List.length_drop, List.length_map, List.length_range']
    omega
  · intro j hj1 hj2
    have hjk : j < k := by
      simpa only [List.length_map, List.length_range'] using hj2
    simp only [List.getElem_take, List.getElem_drop, List.getElem_map,
      List.getElem_range', one_mul]
    rw [List.getD_eq_getElem?_getD, List.getElem?_eq_getElem (by omega), Option.getD_some]

theorem specWindowIdx_eq_range' (n w i : ℕ) :
    specWindowIdx n w i =
      List.range' (i - w / 2) (min n (i + w / 2 + 1) - (i - w / 2)) := by
  have h1 : (specWindowStart w i).toNat = i - w / 2 := by
    simp only [specWindowStart]
    omega
  have h2 : (specWindowStop n w i).toNat = min n (i + w / 2 + 1) := by
    simp only [specWindowStop]
    omega
  rw [specWindowIdx, h1, h2]

theorem smoothMotionData_length (data : List MotionData) (w : ℕ) (hw : w ≤ data.length) :
    (smoothMotionData data w).length = data.length := by
  simp only [smoothMotionData]
  rw [if_neg (by omega)]
  simp

theorem smoothMotionData_getD (data : List MotionData) (w : ℕ) (hw : w ≤ data.length)
    (i : ℕ) (hi : i < data.length) :
    (smoothMotionData data w).getD i default =
      { frame := (data.getD i default).frame
        time := (data.getD i default).time
        x := meanOver ((specWindowIdx data.length w i).map fun j => (data.getD j default).x)
        y := meanOver ((specWindowIdx data.length w i).map fun j => (data.getD j default).y)
        vx := meanOver ((specWindowIdx data.length w i).map fun j => (data.getD j default).vx)
        vy := meanOver ((specWindowIdx data.length w i).map fun j => (data.getD j default).vy)
        speed := meanOver ((specWindowIdx data.length w i).map fun j =>
          (data.getD j default).speed)
        ax := meanOver ((specWindowIdx data.length w i).map fun j => (data.getD j default).ax)
        ay := meanOver ((specWindowIdx data.length w i).map fun j => (data.getD j default).ay)
        acceleration := meanOver ((specWindowIdx data.length w i).map fun j =>
          (data.getD j default).acceleration) } := by
  simp only [smoothMotionData]
  rw [if_neg (by omega)]
  rw [getD_eq_getElem_of_lt _ i (by simpa using hi)]
  simp only [List.getElem_map, List.getElem_range]
  have hwin : (data.drop (i - w / 2)).take
        (min data.length (i + w / 2 + 1) - (i - w / 2)) =
      (specWindowIdx data.length w i).map fun j => data.getD j default := by
    rw [specWindowIdx_eq_range']
    exact drop_take_eq_map_range' data _ _ (by omega)
  rw [hwin]
  simp only [List.map_map, List.length_map, meanOver, Function.comp_def]

theorem smoothMotionData_one (data : List MotionData) :
    smoothMotionData data 1 = data := by
  by_cases h0 : data.length < 1
  · simp only [smoothMotionData]
    rw [if_pos h0]
  · have hw : 1 ≤ data.length := by omega
    apply List.ext_getElem
    · exact smoothMotionData_length data 1 hw
    · intro i h1 h2
      rw [← getD_eq_getElem_of_lt _ i h1, ← getD_eq_getElem_of_lt _ i h2]
      rw [smoothMotionData_getD data 1 hw i h2]
      have hidx : specWindowIdx data.length 1 i = [i] := by
        rw [specWindowIdx_eq_range']
        have e2 : min data.length (i + 1 / 2 + 1) - (i - 1 / 2) = 1 := by omega
        rw [e2]
        have e1 : i - 1 / 2 = i := by omega
        rw [e1]
        rfl
      simp [hidx, meanOver]

/-- C9: the smoother returns the input unchanged when it has fewer
samples than the window; otherwise it returns a sequence of the same
length where sample `i` keeps `frame` and `time` from the input and
averages every other numeric field over the boundary-clipped sub-range
`[max(0, i - ⌊w/2⌋), min(n, i + ⌊w/2⌋ + 1))`; and a window of 1
returns the input values identically. -/
theorem smoothMotionData_spec (data : List MotionData) (w : ℕ) :
    (data.length < w → smoothMotionData data w = data) ∧
    (w ≤ data.length →
      (smoothMotionData data w).length = data.length ∧
      ∀ i < data.length,
        (smoothMotionData data w).getD i default =
          { frame := (data.getD i default).frame
            time := (data.getD i default).time
            x := meanOver ((specWindowIdx data.length w i).map fun j =>
              (data.getD j default).x)
            y := meanOver ((specWindowIdx data.length w i).map fun j =>
              (data.getD j default).y)
            vx := meanOver ((specWindowIdx data.length w i).map fun j =>
              (data.getD j default).vx)
            vy := meanOver ((specWindowIdx data.length w i).map fun j =>
              (data.getD j default).vy)
            speed := meanOver ((specWindowIdx data.length w i).map fun j =>
              (data.getD j default).speed)
            ax := meanOver ((specWindowIdx data.length w i).map fun j =>
              (data.getD j default).ax)
            ay := meanOver ((specWindowIdx data.length w i).map fun j =>
              (data.getD j default).ay)
            acceleration := meanOver ((specWindowIdx data.length w i).map fun j =>
              (data.getD j default).acceleration) }) ∧
    smoothMotionData data 1 = data := by
  refine ⟨?_,
    fun hw => ⟨smoothMotionData_length data w hw,
      fun i hi => smoothMotionData_getD data w hw i hi⟩,
    smoothMotionData_one data⟩
  intro h
  simp only [smoothMotionData]
  rw [if_pos h]

/-- C9 witness: smoothing a concrete one-sample list with window 1
returns it unchanged. -/
theorem smoothMotionData_spec_witness :
    smoothMotionData [⟨1, 2, 3, 4, 5, 6, 7, 8, 9, 10⟩] 1 =
      [⟨1, 2, 3, 4, 5, 6, 7, 8, 9, 10⟩] :=
  (smoothMotionData_spec [⟨1, 2, 3, 4, 5, 6, 7, 8, 9, 10⟩] 3).2.2

theorem mapSet_append (m : List (ℕ × TrackedROI)) (k : ℕ) (v : TrackedROI)
    (h : ∀ p ∈ m, p.1 ≠ k) : mapSet m k v = m ++ [(k, v)] := by
  have hc : ¬ (m.any fun p => p.1 == k) = true := by
    rw [List.any_eq_true]
    rintro ⟨p, hp, hpk⟩
    exact h p hp (by simpa using hpk)
  simp only [mapSet]
  rw [if_neg hc]

theorem trackPass_none (detect : ℕ → ROIData → Option TrackedROI)
    (hdet : ∀ i r, detect i r = none) :
    ∀ (idxs : List ℕ) (cur : ROIData) (acc : List (ℕ × TrackedROI)),
      idxs.Nodup → (∀ i ∈ idxs, ∀ p ∈ acc, p.1 ≠ i) →
      trackPass detect idxs cur acc =
        acc ++ idxs.map fun i => (i, withConfidenceZero cur) := by
  intro idxs
  induction idxs with
  | nil =>
    intro cur acc _ _
    simp [trackPass]
  | cons i rest ih =>
    intro cur acc hnd hfresh
    obtain ⟨hnotin, hndrest⟩ := List.nodup_cons.mp hnd
    simp only [trackPass, hdet]
    rw [mapSet_append _ _ _ (fun p hp => hfresh i (by simp) p hp)]
    rw [ih cur (acc ++ [(i, withConfidenceZero cur)]) hndrest ?_]
    · simp
    · intro j hj p hp
      rcases List.mem_append.mp hp with hp | hp
      · exact hfresh j (List.mem_cons_of_mem i hj) p hp
      · simp only [List.mem_singleton] at hp
        rw [hp]
        show i ≠ j
        intro hij
        exact hnotin (hij ▸ hj)

/-- C5: with a detector that finds no acceptable candidate at any step
(modelled by `detect` returning `none`, which covers both an empty
candidate list and an operational failure), tracking a sequence of
`numFrames ≥ 1` frames from any valid anchor still produces exactly one
entry per frame index `0 .. numFrames - 1`, each carrying the initial
box with confidence 0; and an empty candidate list indeed selects no
detection. -/
theorem trackObjectAcrossFrames_all_miss (detect : ℕ → ROIData → Option TrackedROI)
    (numFrames startFrameIndex : ℕ) (initialROI : ROIData)
    (hN : 1 ≤ numFrames) (hstart : startFrameIndex < numFrames)
    (hdet : ∀ i r, detect i r = none) :
    (trackObjectAcrossFrames detect numFrames initialROI startFrameIndex).Perm
      ((List.range numFrames).map fun i => (i, withConfidenceZero initialROI)) ∧
    ∀ targetROI ow oh, postprocessResults [] targetROI ow oh = none := by
  refine ⟨?_, fun _ _ _ => rfl⟩
  have hsplit : List.range numFrames =
      List.range startFrameIndex ++
        List.range' startFrameIndex (numFrames - startFrameIndex) := by
    rw [List.range_eq_range', List.range_eq_range']
    have h := List.range'_append 0 startFrameIndex (numFrames - startFrameIndex) 1
    simp only [one_mul, zero_add] at h
    rw [h]
    congr 1
    omega
  simp only [trackObjectAcrossFrames]
  rw [trackPass_none detect hdet (List.range' startFrameIndex (numFrames - startFrameIndex))
    initialROI [] (List.nodup_range' _ _) (by simp)]
  rw [List.nil_append]
  rw [trackPass_none detect hdet ((List.range startFrameIndex).reverse) initialROI _
    (List.nodup_reverse.mpr (List.nodup_range startFrameIndex)) ?_]
  · rw [List.map_reverse]
    refine List.Perm.trans
      (List.Perm.append (List.Perm.refl _) (List.reverse_perm _)) ?_
    refine List.Perm.trans List.perm_append_comm ?_
    rw [← List.map_append, hsplit]
  · intro j hj p hp
    rw [List.mem_reverse, List.mem_range] at hj
    obtain ⟨i, hi, rfl⟩ := List.mem_map.mp hp
    rw [List.mem_range'_1] at hi
    show i ≠ j
    omega

/-- C5 witness: three frames, anchor 1, always-missing detector — the
result is exactly one zero-confidence copy of the initial box per frame. -/
theorem trackObjectAcrossFrames_all_miss_witness :
    (trackObjectAcrossFrames (fun _ _ => none) 3 ⟨10, 20, 30, 40⟩ 1).Perm
      ((List.range 3).map fun i => (i, withConfidenceZero ⟨10, 20, 30, 40⟩)) :=
  (trackObjectAcrossFrames_all_miss (fun _ _ => none) 3 1 ⟨10, 20, 30, 40⟩
    (by decide) (by decide) (fun _ _ => rfl)).1

theorem selectBest_eq_none (f : Candidate → ℝ) :
    ∀ l : List Candidate, selectBest f l = none → l = [] := by
  intro l hl
  cases l with
  | nil => rfl
  | cons a t =>
    exfalso
    simp only [selectBest] at hl
    cases h : selectBest f t with
    | none =>
      simp only [h] at hl
      exact Option.noConfusion hl
    | some b =>
      simp only [h] at hl
      by_cases hb : f b > f a
      · rw [if_pos hb] at hl
        exact Option.noConfusion hl
      · rw [if_neg hb] at hl
        exact Option.noConfusion hl

theorem selectBest_mem (f : Candidate → ℝ) :
    ∀ (l : List Candidate) (c : Candidate), selectBest f l = some c → c ∈ l := by
  intro l
  induction l with
  | nil =>
    intro c hc
    exact Option.noConfusion hc
  | cons a t ih =>
    intro c hc
    simp only [selectBest] at hc
    cases h : selectBest f t with
    | none =>
      simp only [h] at hc
      injection hc with h2
      subst h2
      exact List.mem_cons_self a t
    | some b =>
      simp only [h] at hc
      by_cases hb : f b > f a
      · rw [if_pos hb] at hc
        injection hc with h2
        subst h2
        exact List.mem_cons_of_mem a (ih b h)
      · rw [if_neg hb] at hc
        injection hc with h2
        subst h2
        exact List.mem_cons_self a t

theorem selectBest_le (f : Candidate → ℝ) :
    ∀ (l : List Candidate) (c : Candidate), selectBest f l = some c →
      ∀ d ∈ l, f d ≤ f c := by
  intro l
  induction l with
  | nil =>
    intro c hc d hd
    cases hd
  | cons a t ih =>
    intro c hc d hd
    simp only [selectBest] at hc
    cases h : selectBest f t with
    | none =>
      have ht := selectBest_eq_none f t h
      simp only [h] at hc
      injection hc with h2
      subst h2
      subst ht
      rcases List.mem_cons.mp hd with rfl | hd2
      · exact le_refl _
      · cases hd2
    | some b =>
      simp only [h] at hc
      by_cases hb : f b > f a
      · rw [if_pos hb] at hc
        injection hc with h2
        subst h2
        rcases List.mem_cons.mp hd with rfl | hd2
        · linarith
        · exact ih b h d hd2
      · rw [if_neg hb] at hc
        injection hc with h2
        subst h2
        rcases List.mem_cons.mp hd with rfl | hd2
        · exact le_refl _
        · push_neg at hb
          exact le_trans (ih b h d hd2) hb

theorem selectBest_first (f : Candidate → ℝ) :
    ∀ (l : List Candidate) (c : Candidate), selectBest f l = some c →
      ∃ l₁ l₂, l = l₁ ++ c :: l₂ ∧ ∀ d ∈ l₁, f d < f c := by
  intro l
  induction l with
  | nil =>
    intro c hc
    exact Option.noConfusion hc
  | cons a t ih =>
    intro c hc
    simp only [selectBest] at hc
    cases h : selectBest f t with
    | none =>
      simp only [h] at hc
      injection hc with h2
      subst h2
      exact ⟨[], t, rfl, by intro d hd; cases hd⟩
    | some b =>
      simp only [h] at hc
      by_cases hb : f b > f a
      · rw [if_pos hb] at hc
        injection hc with h2
        subst h2
        obtain ⟨l₁, l₂, heq, hlt⟩ := ih b h
        refine ⟨a :: l₁, l₂, by rw [List.cons_append, heq], ?_⟩
        intro d hd
        rcases List.mem_cons.mp hd with rfl | hd2
        · exact hb
        · exact hlt d hd2
      · rw [if_neg hb] at hc
        injection hc with h2
        subst h2
        exact ⟨[], t, rfl, by intro d hd; cases hd⟩

theorem scoreOf_pos (targetROI : ROIData) (ow oh : ℝ) (c : Candidate)
    (h : maxClassScore c > 0.25) : 0 < scoreOf targetROI ow oh c := by
  simp only [scoreOf]
  have hs := Real.sqrt_nonneg ((c.x * ow / 640 - (targetROI.x + targetROI.w / 2)) ^ 2 +
    (c.y * oh / 640 - (targetROI.y + targetROI.h / 2)) ^ 2)
  exact div_pos (by linarith) (by linarith)

theorem postStep_foldl (targetROI : ROIData) (ow oh : ℝ) :
    ∀ (cands : List Candidate) (st : Option TrackedROI) (s : ℝ),
      List.foldl (postStep (targetROI.x + targetROI.w / 2)
          (targetROI.y + targetROI.h / 2) ow oh) (st, s) cands =
        match selectBest (scoreOf targetROI ow oh)
            (cands.filter fun c => maxClassScore c > 0.25) with
        | none => (st, s)
        | some c =>
            if scoreOf targetROI ow oh c > s
            then (some (toTrackedROI ow oh c), scoreOf targetROI ow oh c)
            else (st, s) := by
  intro cands
  induction cands with
  | nil =>
    intro st s
    simp [selectBest]
  | cons c cs ih =>
    intro st s
    rw [List.foldl_cons]
    by_cases hc : maxClassScore c > 0.25
    · rw [List.filter_cons_of_pos (by simpa using hc)]
      have hstep : postStep (targetROI.x + targetROI.w / 2)
          (targetROI.y + targetROI.h / 2) ow oh (st, s) c =
          if scoreOf targetROI ow oh c > s
          then (some (toTrackedROI ow oh c), scoreOf targetROI ow oh c)
          else (st, s) := by
        simp only [postStep]
        rw [if_pos hc]
        rfl
      rw [hstep]
      by_cases hgt : scoreOf targetROI ow oh c > s
      · rw [if_pos hgt, ih]
        simp only [selectBest]
        cases hsel : selectBest (scoreOf targetROI ow oh)
            (cs.filter fun d => maxClassScore d > 0.25) with
        | none =>
          simp [hgt]
        | some b =>
          by_cases hbc : scoreOf targetROI ow oh b > scoreOf targetROI ow oh c
          · have hbs : scoreOf targetROI ow oh b > s := by linarith
            simp [hbc, hbs]
          · simp [hbc, hgt]
      · rw [if_neg hgt, ih]
        simp only [selectBest]
        cases hsel : selectBest (scoreOf targetROI ow oh)
            (cs.filter fun d => maxClassScore d > 0.25) with
        | none =>
          simp [hgt]
        | some b =>
          by_cases hbc : scoreOf targetROI ow oh b > scoreOf targetROI ow oh c
          · simp [hbc]
          · have hbs : ¬ scoreOf targetROI ow oh b > s := by
              push_neg at hgt hbc ⊢
              linarith
            simp [hbc, hgt, hbs]
    · rw [List.filter_cons_of_neg (by simpa using hc)]
      have hstep0 : postStep (targetROI.x + targetROI.w / 2)
          (targetROI.y + targetROI.h / 2) ow oh (st, s) c = (st, s) := by
        simp only [postStep]
        rw [if_neg hc]
      rw [hstep0]
      exact ih st s

/-- C6: among the proposals whose confidence (max class score) is
strictly above the fixed threshold 0.25, `postprocessResults` returns
exactly the first-seen proposal maximizing
`score = confidence / (1 + distance_to_hint_center / 100)` (Euclidean
pixel distance between candidate center and hint center), rescaled to a
`TrackedROI`: the selected candidate is eligible, its score is maximal
among eligible candidates, and every eligible candidate seen before it
has a strictly smaller score, so selection is deterministic given the
candidate order. -/
theorem postprocessResults_selects_best (cands : List Candidate) (targetROI : ROIData)
    (ow oh : ℝ) :
    postprocessResults cands targetROI ow oh =
      (selectBest (scoreOf targetROI ow oh)
        (cands.filter fun c => maxClassScore c > 0.25)).map (toTrackedROI ow oh) ∧
    ∀ c, selectBest (scoreOf targetROI ow oh)
        (cands.filter fun c => maxClassScore c > 0.25) = some c →
      c ∈ cands.filter (fun c => maxClassScore c > 0.25) ∧
      (∀ d ∈ cands.filter (fun c => maxClassScore c > 0.25),
        scoreOf targetROI ow oh d ≤ scoreOf targetROI ow oh c) ∧
      ∃ l₁ l₂, cands.filter (fun c => maxClassScore c > 0.25) = l₁ ++ c :: l₂ ∧
        ∀ d ∈ l₁, scoreOf targetROI ow oh d < scoreOf targetROI ow oh c := by
  constructor
  · simp only [postprocessResults]
    rw [postStep_foldl targetROI ow oh cands none 0]
    cases hsel : selectBest (scoreOf targetROI ow oh)
        (cands.filter fun c => maxClassScore c > 0.25) with
    | none => rfl
    | some c =>
      have hcmem := selectBest_mem _ _ _ hsel
      have hcthr : maxClassScore c > 0.25 := by
        have h := (List.mem_filter.mp hcmem).2
        simpa using h
      have hpos := scoreOf_pos targetROI ow oh c hcthr
      simp [hpos]
  · intro c hsel
    exact ⟨selectBest_mem _ _ _ hsel, selectBest_le _ _ _ hsel,
      selectBest_first _ _ _ hsel⟩

/-- C6 witness: a single above-threshold candidate is selected and
rescaled. -/
theorem postprocessResults_selects_best_witness :
    postprocessResults [⟨320, 240, 10, 10, [0.9]⟩] ⟨0, 0, 0, 0⟩ 640 640 =
      (selectBest (scoreOf ⟨0, 0, 0, 0⟩ 640 640)
        (([⟨320, 240, 10, 10, [0.9]⟩] : List Candidate).filter
          fun c => maxClassScore c > 0.25)).map (toTrackedROI 640 640) :=
  (postprocessResults_selects_best [⟨320, 240, 10, 10, [0.9]⟩] ⟨0, 0, 0, 0⟩ 640 640).1
